import Mathlib

/-!
Verification of the configuration-resolution and public-ID-composition
subsystem of the cloudinary CLI (files cmd/ls.go and cmd/rm.go).

Strings are shallowly embedded as lists of characters (Go strings are byte
sequences; every string appearing here is ASCII, where the two coincide).
Each definition mirrors one Go function; the doc comment names it.
Functions of the library package that are not part of the cmd sources are
modelled from the specification and marked as such.
-/

deriving instance DecidableEq for Except

namespace Cloudinary

/-- Go strings, embedded as lists of characters. -/
abbrev Str := List Char

/-- The process environment: os.Getenv, which yields the empty string for
undefined variables. -/
abbrev Env := Str → Str

/-- The character class of the regular expression [A-Z_] used by
replaceEnvVars (ls.go line 317). -/
def isVarChar (c : Char) : Bool :=
  (decide ('A' ≤ c) && decide (c ≤ 'Z')) || c == '_'

/-- One attempted match of the pattern \$\x7b([A-Z_]+)\x7d at the head of the
input, exactly as the Go regexp engine behaves at a fixed start position:
literal dollar and open brace, a maximal nonempty run of [A-Z_], then a
close brace (backtracking cannot help, because a shorter run is followed by
another [A-Z_] character, which is not a close brace).  Returns the captured
variable name and the text after the match. -/
def tryMatch : Str → Option (Str × Str)
  | c1 :: c2 :: rest =>
    if c1 = '$' ∧ c2 = '{' then
      let name := rest.takeWhile isVarChar
      if name = [] then none
      else
        match rest.drop name.length with
        | c3 :: after => if c3 = '}' then some (name, after) else none
        | [] => none
    else none
  | _ => none

/-- The full text of a placeholder for a given variable name. -/
def mkPat (name : Str) : Str :=
  '$' :: '{' :: (name ++ ['}'])

/-- All matches of the placeholder pattern, in order, as found by
regexp.FindAllString(src, -1) in replaceEnvVars (ls.go line 321).  The Go
engine takes leftmost non-overlapping matches; scanning every start
position is equivalent, because a match contains no dollar sign after its
first character, so no later match can begin inside an earlier one. -/
def findMatches : Str → List Str
  | [] => []
  | c :: rest =>
    match tryMatch (c :: rest) with
    | some (name, _) => mkPat name :: findMatches rest
    | none => findMatches rest

/-- The variable name inside a matched placeholder: varname[2 : len-1]
(ls.go line 323). -/
def varName (m : Str) : Str :=
  (m.drop 2).dropLast

/-- Kernel of strings.Replace(s, pat, rep, -1) for a nonempty pattern:
replace each leftmost non-overlapping occurrence, never rescanning the
replacement text.  The Nat argument is recursion fuel — the input length
always suffices, and the run-out case is unreachable; fuel keeps the
recursion structural so that the kernel can evaluate it. -/
def replaceAllGo (p : Char) (ps rep : Str) : Nat → Str → Str
  | _, [] => []
  | 0, s => s
  | fuel + 1, c :: rest =>
    if (p :: ps) <+: (c :: rest) then
      rep ++ replaceAllGo p ps rep fuel (rest.drop ps.length)
    else
      c :: replaceAllGo p ps rep fuel rest

/-- strings.Replace(s, pat, rep, -1) as used in replaceEnvVars (ls.go
line 327).  The patterns passed there are placeholder texts, never empty;
for an empty pattern this model returns the input unchanged. -/
def replaceAll (s pat rep : Str) : Str :=
  match pat with
  | [] => s
  | p :: ps => replaceAllGo p ps rep s.length s

/-- The loop body of replaceEnvVars (ls.go lines 322-328): for each matched
placeholder in order, look its variable up in the environment, fail if the
value is empty, otherwise globally replace the placeholder text in the
evolving string. -/
def substLoop (env : Env) : List Str → Str → Except Str Str
  | [], src => .ok src
  | m :: ms, src =>
    let evar := env (varName m)
    if evar = [] then
      .error (("error: env var ".toList) ++ m ++ (" not defined".toList))
    else
      substLoop env ms (replaceAll src m evar)

/-- replaceEnvVars (ls.go lines 316-330): find every placeholder of the
original string, then run the sequential replacement loop.  The constant
regular expression always compiles, so that error path is dead code. -/
def replaceEnvVars (env : Env) (src : Str) : Except Str Str :=
  substLoop env (findMatches src) src

/-- Recursion kernel of the simultaneous substitution, with fuel for the
same reason as replaceAllGo. -/
def specSubstituteGo (env : Env) : Nat → Str → Str
  | _, [] => []
  | 0, s => s
  | fuel + 1, c :: rest =>
    match tryMatch (c :: rest) with
    | some (name, _) =>
      env name ++ specSubstituteGo env fuel (rest.drop (name.length + 2))
    | none => c :: specSubstituteGo env fuel rest

/-- Defined from the specification wording of EnvSubstitutor, for
comparison with the code: a single simultaneous pass that replaces every
well-formed placeholder by the value of its variable and leaves all other
text (including lowercase or mixed-case placeholders) verbatim. -/
def specSubstitute (env : Env) (s : Str) : Str :=
  specSubstituteGo env s.length s

/-- Every dollar sign in the string begins a well-formed placeholder. -/
def dollarsWF : Str → Bool
  | [] => true
  | c :: rest =>
    if c = '$' then
      match tryMatch (c :: rest) with
      | some _ => dollarsWF rest
      | none => false
    else dollarsWF rest

/-- The first matched placeholder whose variable has an empty value, if
any: the placeholder at which the replaceEnvVars loop stops with an
error. -/
def firstBad (env : Env) : List Str → Option Str
  | [] => none
  | m :: ms => if env (varName m) = [] then some m else firstBad env ms

/-- strings.HasSuffix(s, slash). -/
def hasTrailingSlash (s : Str) : Bool :=
  s.getLast? == some '/'

/-- ensureTrailingSlash (ls.go lines 347-352): append a path separator
unless one is already last. -/
def ensureTrailingSlash (dirname : Str) : Str :=
  if hasTrailingSlash dirname then dirname else dirname ++ ['/']

/-- Modelled from the spec: cloudinary.EnsureTrailingSlash, a library
function of this repository that is not among the given sources (used at
ls.go lines 248 and 299).  The spec contract for PathPrepender: the result
is empty iff the input is empty, and the function is a no-op when a
trailing separator is already present, otherwise it appends one. -/
def EnsureTrailingSlash (path : Str) : Str :=
  if path = [] then [] else ensureTrailingSlash path

/-- Scan a reversed identifier for the extension dot: stop successfully at
the first dot (the last dot of the original string), fail upon reaching a
path separator (a dot in an earlier path segment is not an extension) or
the start of the string. -/
def dropExtRev : Str → Option Str
  | [] => none
  | c :: rest =>
    if c = '.' then some rest
    else if c = '/' then none
    else dropExtRev rest

/-- Modelled from the spec: the extension-stripping step of
cloudinary.CleanExtensionNameWithPrepend, a library function of this
repository that is not among the given sources (used at ls.go line 376).
Per the spec, the extension — the text from the final dot of the final
path segment onward, if any — is removed; an identifier without an
extension is used unmodified. -/
def cleanExtension (s : Str) : Str :=
  match dropExtRev s.reverse with
  | some r => r.reverse
  | none => s

/-- Modelled from the spec: cloudinary.CleanExtensionNameWithPrepend
(ls.go line 376) — strip the extension of the identifier, then prefix the
prepend path. -/
def CleanExtensionNameWithPrepend (opt prepend : Str) : Str :=
  prepend ++ cleanExtension opt

/-- The effective prepend path as computed identically in composePublicID
(ls.go lines 367-372) and in the rm command (rm.go lines 32-37): the
per-command path flag wins if nonempty, else the configured default, else
empty. -/
def effectivePrepend (optPath prependPath : Str) : Str :=
  if optPath ≠ [] then ensureTrailingSlash optPath
  else if prependPath ≠ [] then ensureTrailingSlash prependPath
  else []

/-- composePublicID (ls.go lines 366-377).  The resource kind is selected
by the raw flag: a nonempty raw flag takes the raw branch (identifier kept
verbatim); otherwise the image branch strips the extension. -/
def composePublicID (opt optPath prependPath optRaw : Str) : Str :=
  let prepend := effectivePrepend optPath prependPath
  if optRaw ≠ [] then prepend ++ opt
  else CleanExtensionNameWithPrepend opt prepend

/-- The two addressing conventions (cloudinary.RawType / ImageType). -/
inductive ResourceKind
  | raw
  | image
deriving DecidableEq

/-- One call to the remote-service collaborator. -/
inductive ServiceCall
  | resources (kind : ResourceKind)
  | resourceDetails (publicID : Str)
  | delete (id : Str) (prepend : Str) (kind : ResourceKind)
deriving DecidableEq

/-- The rm command body (rm.go lines 28-53): the list of remote-service
calls it performs, and the usage-error message if it fails before any.
fail exits the process at once, so the error case performs no call. -/
def rmRun (optImg optRaw optPath prependPath : Str) : List ServiceCall × Option Str :=
  if optRaw = [] ∧ optImg = [] then
    ([], some ("Missing -i or -r option.".toList))
  else
    let prepend := effectivePrepend optPath prependPath
    if optRaw ≠ [] then
      ([ServiceCall.delete optRaw prepend ResourceKind.raw], none)
    else
      ([ServiceCall.delete optImg prepend ResourceKind.image], none)

/-- Observable outcome of the ls command body. -/
structure LsResult where
  calls : List ServiceCall
  printedRawNotSupported : Bool
  exitedWithSuccess : Bool
deriving DecidableEq

/-- The ls command body (ls.go lines 30-49): with no selector, list both
resource kinds; with a nonempty raw selector, print that raw details are
not supported and exit with status zero before the resource-details call;
otherwise fetch the details of the composed image public ID. -/
def lsRun (optImg optRaw optPath prependPath : Str) : LsResult :=
  if optImg = [] ∧ optRaw = [] then
    { calls := [ServiceCall.resources ResourceKind.raw, ServiceCall.resources ResourceKind.image]
      printedRawNotSupported := false
      exitedWithSuccess := false }
  else if optRaw ≠ [] then
    { calls := []
      printedRawNotSupported := true
      exitedWithSuccess := true }
  else
    { calls := [ServiceCall.resourceDetails (composePublicID optImg optPath prependPath optRaw)]
      printedRawNotSupported := false
      exitedWithSuccess := false }

/-- A parsed URI (net/url's URL), abstracted to its textual form: the model
keeps only the round-tripped string, which is all this subsystem reads. -/
structure URL where
  repr : Str
deriving DecidableEq

/-- The Config structure (ls.go lines 207-227).  Go nil pointers are none,
Go empty strings are empty lists. -/
structure Config where
  cloudinaryURI : Option URL
  mongoURI : Option URL
  keepFilesPattern : Str
  prependPath : Str
  prodTag : Str
deriving DecidableEq

/-- The raw configuration values read through viper; an absent key yields
the empty string. -/
structure RawConfig where
  cloudinaryUri : Str
  prepend : Str
  prodtag : Str
  keepfiles : Str
  databaseUri : Str
deriving DecidableEq

/-- The net/url collaborator functions used by the code (Parse,
QueryUnescape, URL.String), kept abstract: theorems quantify over them or
instantiate them with a concrete model. -/
structure ExtURL where
  parse : Str → Except Str URL
  unescape : Str → Except Str Str
  render : URL → Str

/-- handleQuery (ls.go lines 332-346): percent-decode the textual form of
the URI, substitute environment placeholders, re-parse; each failure
propagates. -/
def handleQuery (ext : ExtURL) (env : Env) (uri : URL) : Except Str URL := do
  let qs ← ext.unescape (ext.render uri)
  let r ← replaceEnvVars env qs
  ext.parse r

/-- First block of Config.handleEnvVars (ls.go lines 284-291): rewrite the
cloudinary URI if present; on failure the config is left as it was at this
point. -/
def hevStep1 (ext : ExtURL) (env : Env) (c : Config) : Config × Option Str :=
  match c.cloudinaryURI with
  | none => (c, none)
  | some u =>
    match handleQuery ext env u with
    | .error e => (c, some e)
    | .ok curi => ({ c with cloudinaryURI := some curi }, none)

/-- Second block of Config.handleEnvVars (ls.go lines 292-301): if the
prepend path is empty and the production tag is nonempty, substitute
environment placeholders in the tag and normalize the trailing slash. -/
def hevStep2 (env : Env) (c : Config) : Config × Option Str :=
  if c.prependPath.length = 0 then
    if c.prodTag.length > 0 then
      match replaceEnvVars env c.prodTag with
      | .error e => (c, some e)
      | .ok ptag => ({ c with prependPath := EnsureTrailingSlash ptag }, none)
    else (c, none)
  else (c, none)

/-- Third block of Config.handleEnvVars (ls.go lines 303-310): rewrite the
mongo URI if present. -/
def hevStep3 (ext : ExtURL) (env : Env) (c : Config) : Config × Option Str :=
  match c.mongoURI with
  | none => (c, none)
  | some u =>
    match handleQuery ext env u with
    | .error e => (c, some e)
    | .ok muri => ({ c with mongoURI := some muri }, none)

/-- Early-return sequencing of the handleEnvVars blocks: a step that failed
stops the chain, keeping the config as mutated so far. -/
def andThenCfg (r : Config × Option Str) (f : Config → Config × Option Str) :
    Config × Option Str :=
  match r with
  | (c, some e) => (c, some e)
  | (c, none) => f c

/-- Config.handleEnvVars (ls.go lines 283-312). -/
def handleEnvVars (ext : ExtURL) (env : Env) (c : Config) : Config × Option Str :=
  andThenCfg (andThenCfg (hevStep1 ext env c) (hevStep2 env)) (hevStep3 ext env)

/-- The tail of LoadConfig (ls.go lines 269-273): run handleEnvVars on the
settings as assigned so far; its failure is returned with no settings
value, its success returns the settings. -/
def finishLoad (r : Config × Option Str) : Config × Except Str Config :=
  match r with
  | (s6, some e) => (s6, .error e)
  | (s6, none) => (s6, .ok s6)

/-- LoadConfig (ls.go lines 232-274), made explicit about the package-level
settings variable it mutates: the function takes the current settings value
and returns the settings value after the call together with the returned
result.  The err-check after viper.GetString at line 238 compares a
variable that is still nil and can never fire, so it has no counterpart
here.  Field assignments happen in source order, so a later failure leaves
the earlier assignments in place. -/
def LoadConfig (ext : ExtURL) (env : Env) (raw : RawConfig) (s0 : Config) :
    Config × Except Str Config :=
  match ext.parse raw.cloudinaryUri with
  | .error e => (s0, .error (("cloudinary URI: ".toList) ++ e))
  | .ok cURI =>
    let s1 := { s0 with cloudinaryURI := some cURI }
    let s2 := { s1 with prependPath := EnsureTrailingSlash raw.prepend }
    let s3 := { s2 with prodTag := raw.prodtag }
    let s4 := if raw.keepfiles ≠ [] then { s3 with keepFilesPattern := raw.keepfiles } else s3
    if raw.databaseUri ≠ [] then
      match ext.parse raw.databaseUri with
      | .error e => (s4, .error (("mongoDB URI: ".toList) ++ e))
      | .ok mURI =>
        let s5 := { s4 with mongoURI := some mURI }
        finishLoad (handleEnvVars ext env s5)
    else
      finishLoad (handleEnvVars ext env s4)

/-- ASCII control characters (including DEL), which net/url.Parse
rejects. -/
def isCtl (c : Char) : Bool :=
  decide (c.toNat < 32) || c.toNat == 127

/-- A concrete model of the net/url collaborator, for evaluating the code
on explicit inputs: Parse rejects strings containing a control character
(as Go's does) and otherwise succeeds, and QueryUnescape is the identity
on strings without a percent sign (as Go's is). -/
def extSimple : ExtURL where
  parse := fun s =>
    if s.any isCtl then .error ("net/url: invalid control character in URL".toList)
    else .ok ⟨s⟩
  unescape := fun s =>
    if '%' ∈ s then .error ("invalid URL escape".toList) else .ok s
  render := fun u => u.repr

/-- An environment defining only BUILD_ID=42, for the tag-fallback
example. -/
def env42 : Env :=
  fun n => if n = ("BUILD_ID".toList) then ("42".toList) else []

/-- An environment defining A with a value that is itself a placeholder
text, and B with a plain value. -/
def envAB : Env :=
  fun n =>
    if n = ("A".toList) then ("${B}".toList)
    else if n = ("B".toList) then ("v".toList)
    else []

/-- The empty environment. -/
def envEmpty : Env := fun _ => []

/-- The zero value of Config: the package-level settings variable at
process start (ls.go line 134). -/
def emptyCfg : Config :=
  { cloudinaryURI := none, mongoURI := none, keepFilesPattern := []
    prependPath := [], prodTag := [] }

/-- A raw configuration whose database URI contains a control character,
so its parse fails after the cloudinary URI was already assigned. -/
def rawCex : RawConfig :=
  { cloudinaryUri := ("u".toList), prepend := [], prodtag := []
    keepfiles := [], databaseUri := [Char.ofNat 127] }

/-- A raw configuration whose production tag references an undefined
environment variable, so resolution fails in handleEnvVars after the
cloudinary URI was already assigned. -/
def rawCex2 : RawConfig :=
  { cloudinaryUri := ("u".toList), prepend := [], prodtag := ("${X}".toList)
    keepfiles := [], databaseUri := [] }

/-- The fully absent raw configuration: every key missing, so every viper
read yields the empty string. -/
def rawEmpty : RawConfig :=
  { cloudinaryUri := [], prepend := [], prodtag := [], keepfiles := [], databaseUri := [] }

/-- The settings produced by LoadConfig on the fully absent raw
configuration under the concrete net/url model. -/
def cfgEmptyLoaded : Config :=
  { cloudinaryURI := some ⟨[]⟩, mongoURI := none, keepFilesPattern := []
    prependPath := [], prodTag := [] }

/-- The configuration state reaching hevStep2 in the tag-fallback example:
empty prepend path, production tag with a BUILD_ID placeholder and a
trailing slash. -/
def cfgTag : Config :=
  { cloudinaryURI := none, mongoURI := none, keepFilesPattern := []
    prependPath := [], prodTag := ("${BUILD_ID}/".toList) }

/-! ### Helper lemmas -/

theorem replaceAllGo_congr (p : Char) (ps rep : Str) :
    ∀ f s f', s.length ≤ f → s.length ≤ f' →
      replaceAllGo p ps rep f s = replaceAllGo p ps rep f' s := by
  intro f
  induction f with
  | zero =>
    intro s f' h1 _
    have hs : s = [] := List.eq_nil_of_length_eq_zero (Nat.le_zero.mp h1)
    subst hs
    cases f' <;> rfl
  | succ f ih =>
    intro s f' h1 h2
    cases s with
    | nil => cases f' <;> rfl
    | cons c rest =>
      cases f' with
      | zero => simp at h2
      | succ f' =>
        simp only [List.length_cons, Nat.add_le_add_iff_right] at h1 h2
        simp only [replaceAllGo]
        by_cases hp : (p :: ps) <+: (c :: rest)
        · rw [if_pos hp, if_pos hp]
          have hl1 : (rest.drop ps.length).length ≤ f := by
            simp only [List.length_drop]; omega
          have hl2 : (rest.drop ps.length).length ≤ f' := by
            simp only [List.length_drop]; omega
          rw [ih _ f' hl1 hl2]
        · rw [if_neg hp, if_neg hp, ih _ f' h1 h2]

theorem replaceAll_nil (pat rep : Str) : replaceAll [] pat rep = [] := by
  cases pat <;> rfl

theorem replaceAll_cons (p c : Char) (ps rep rest : Str) :
    replaceAll (c :: rest) (p :: ps) rep =
      if (p :: ps) <+: (c :: rest) then
        rep ++ replaceAll (rest.drop ps.length) (p :: ps) rep
      else c :: replaceAll rest (p :: ps) rep := by
  show replaceAllGo p ps rep (c :: rest).length (c :: rest) = _
  simp only [List.length_cons, replaceAllGo]
  by_cases hp : (p :: ps) <+: (c :: rest)
  · rw [if_pos hp, if_pos hp]
    have : (rest.drop ps.length).length ≤ rest.length := by
      simp only [List.length_drop]; omega
    rw [replaceAllGo_congr p ps rep rest.length _ _ this le_rfl]
    rfl
  · rw [if_neg hp, if_neg hp,
      replaceAllGo_congr p ps rep rest.length rest rest.length le_rfl le_rfl]
    rfl

theorem specSubstituteGo_congr (env : Env) :
    ∀ f s f', s.length ≤ f → s.length ≤ f' →
      specSubstituteGo env f s = specSubstituteGo env f' s := by
  intro f
  induction f with
  | zero =>
    intro s f' h1 _
    have hs : s = [] := List.eq_nil_of_length_eq_zero (Nat.le_zero.mp h1)
    subst hs
    cases f' <;> rfl
  | succ f ih =>
    intro s f' h1 h2
    cases s with
    | nil => cases f' <;> rfl
    | cons c rest =>
      cases f' with
      | zero => simp at h2
      | succ f' =>
        simp only [List.length_cons, Nat.add_le_add_iff_right] at h1 h2
        simp only [specSubstituteGo]
        cases htm : tryMatch (c :: rest) with
        | none =>
          dsimp only
          rw [ih _ f' h1 h2]
        | some na =>
          obtain ⟨n, a⟩ := na
          dsimp only
          have hl1 : (rest.drop (n.length + 2)).length ≤ f := by
            simp only [List.length_drop]; omega
          have hl2 : (rest.drop (n.length + 2)).length ≤ f' := by
            simp only [List.length_drop]; omega
          rw [ih _ f' hl1 hl2]

theorem specSubstitute_nil (env : Env) : specSubstitute env [] = [] := rfl

theorem specSubstitute_cons (env : Env) (c : Char) (rest : Str) :
    specSubstitute env (c :: rest) =
      match tryMatch (c :: rest) with
      | some (name, _) => env name ++ specSubstitute env (rest.drop (name.length + 2))
      | none => c :: specSubstitute env rest := by
  show specSubstituteGo env (c :: rest).length (c :: rest) = _
  simp only [List.length_cons, specSubstituteGo]
  cases htm : tryMatch (c :: rest) with
  | none =>
    dsimp only
    rw [specSubstituteGo_congr env rest.length rest rest.length le_rfl le_rfl]
    rfl
  | some na =>
    obtain ⟨n, a⟩ := na
    dsimp only
    have : (rest.drop (n.length + 2)).length ≤ rest.length := by
      simp only [List.length_drop]; omega
    rw [specSubstituteGo_congr env rest.length _ _ this le_rfl]
    rfl

theorem dropExtRev_append {a t : Str} (hd : '.' ∉ a) (hs : '/' ∉ a) :
    dropExtRev (a ++ t) = dropExtRev t := by
  induction a with
  | nil => rfl
  | cons c a ih =>
    have hc1 : c ≠ '.' := fun h => hd (h ▸ List.mem_cons_self c a)
    have hc2 : c ≠ '/' := fun h => hs (h ▸ List.mem_cons_self c a)
    simp only [List.cons_append, dropExtRev, if_neg hc1, if_neg hc2]
    exact ih (fun h => hd (List.mem_cons_of_mem c h)) (fun h => hs (List.mem_cons_of_mem c h))

theorem dropExtRev_of_no_dot {l : Str} (hd : '.' ∉ l) : dropExtRev l = none := by
  induction l with
  | nil => rfl
  | cons c l ih =>
    have hc1 : c ≠ '.' := fun h => hd (h ▸ List.mem_cons_self c l)
    simp only [dropExtRev, if_neg hc1]
    by_cases hc2 : c = '/'
    · simp [hc2]
    · simp only [if_neg hc2]
      exact ih (fun h => hd (List.mem_cons_of_mem c h))

theorem cleanExtension_strip {stem ext : Str} (hd : '.' ∉ ext) (hs : '/' ∉ ext) :
    cleanExtension (stem ++ '.' :: ext) = stem := by
  have hrev : (stem ++ '.' :: ext).reverse = ext.reverse ++ '.' :: stem.reverse := by
    simp
  have hd2 : '.' ∉ ext.reverse := by simpa using hd
  have hs2 : '/' ∉ ext.reverse := by simpa using hs
  simp only [cleanExtension, hrev, dropExtRev_append hd2 hs2, dropExtRev, if_pos rfl]
  simp

theorem cleanExtension_of_no_dot {s : Str} (hd : '.' ∉ s) : cleanExtension s = s := by
  have : '.' ∉ s.reverse := by simpa using hd
  simp [cleanExtension, dropExtRev_of_no_dot this]

theorem finishLoad_ok {x : Config × Option Str} {c r : Config}
    (h : finishLoad x = (c, Except.ok r)) : r = c := by
  obtain ⟨s, e⟩ := x
  cases e with
  | none =>
    simp only [finishLoad] at h
    injection h with h1 h2
    injection h2 with h2
    subst h1
    subst h2
    rfl
  | some e => simp [finishLoad] at h

/-! ### Placeholder-matching lemmas -/

theorem isVarChar_dollar : isVarChar '$' = false := by decide

theorem isVarChar_rbrace : isVarChar '}' = false := by decide

theorem tryMatch_none_of_ne_dollar {c : Char} {r : Str} (h : c ≠ '$') :
    tryMatch (c :: r) = none := by
  cases r with
  | nil => rfl
  | cons c2 r2 =>
    have : ¬(c = '$' ∧ c2 = '{') := fun hh => h hh.1
    simp [tryMatch, this]

theorem mkPat_append (n t : Str) :
    mkPat n ++ t = '$' :: '{' :: (n ++ '}' :: t) := by
  simp [mkPat]

theorem tryMatch_mkPat {n : Str} (h1 : n ≠ []) (h2 : n.all isVarChar = true) (t : Str) :
    tryMatch (mkPat n ++ t) = some (n, t) := by
  have hall : ∀ a ∈ n, isVarChar a := List.all_eq_true.mp h2
  have htw : (n ++ '}' :: t).takeWhile isVarChar = n := by
    rw [List.takeWhile_append_of_pos hall, List.takeWhile_cons_of_neg]
    · simp
    · simp [isVarChar_rbrace]
  have hdrop : (n ++ '}' :: t).drop n.length = '}' :: t := List.drop_left n ('}' :: t)
  rw [mkPat_append]
  simp only [tryMatch, htw, hdrop, if_pos rfl]
  simp [h1]

theorem tryMatch_some_decomp {l n a : Str} (h : tryMatch l = some (n, a)) :
    n ≠ [] ∧ n.all isVarChar = true ∧ l = mkPat n ++ a := by
  match l with
  | [] => simp [tryMatch] at h
  | [c1] => simp [tryMatch] at h
  | c1 :: c2 :: rest =>
    simp only [tryMatch] at h
    by_cases hc : c1 = '$' ∧ c2 = '{'
    · rw [if_pos hc] at h
      by_cases hname : rest.takeWhile isVarChar = []
      · simp [hname] at h
      · rw [if_neg hname] at h
        cases hd : rest.drop (rest.takeWhile isVarChar).length with
        | nil => rw [hd] at h; simp at h
        | cons c3 after =>
          simp only [hd] at h
          by_cases hc3 : c3 = '}'
          · rw [if_pos hc3] at h
            subst hc3
            rw [Option.some.injEq, Prod.mk.injEq] at h
            obtain ⟨hn, ha⟩ := h
            have hn1 : n ≠ [] := by rw [← hn]; exact hname
            have hn2 : n.all isVarChar = true := by rw [← hn]; exact List.all_takeWhile
            have htake : rest.take (rest.takeWhile isVarChar).length = rest.takeWhile isVarChar :=
              (List.prefix_iff_eq_take.mp (List.takeWhile_prefix isVarChar)).symm
            have hrest : rest = n ++ '}' :: a := by
              conv_lhs => rw [← List.take_append_drop (rest.takeWhile isVarChar).length rest]
              rw [htake, hd, hn, ha]
            refine ⟨hn1, hn2, ?_⟩
            rw [mkPat_append, hrest, hc.1, hc.2]
          · rw [if_neg hc3] at h
            exact absurd h (by simp)
    · rw [if_neg hc] at h
      exact absurd h (by simp)

theorem varName_mkPat (n : Str) : varName (mkPat n) = n := by
  simp [varName, mkPat]

theorem mkPat_inj {n n' : Str} (h : mkPat n = mkPat n') : n = n' := by
  simp only [mkPat] at h
  injection h with h1 h
  injection h with h2 h
  have := congrArg List.dropLast h
  simpa using this

theorem dollar_notMem_inner {n : Str} (h2 : n.all isVarChar = true) :
    '$' ∉ ('{' :: (n ++ ['}'])) := by
  intro hmem
  rcases List.mem_cons.mp hmem with h | h
  · exact absurd h.symm (by decide)
  · rcases List.mem_append.mp h with h | h
    · have := List.all_eq_true.mp h2 _ h
      rw [isVarChar_dollar] at this
      exact Bool.noConfusion this
    · rcases List.mem_singleton.mp h with h
      exact absurd h (by decide)

theorem prefix_mkPat_mkPat {n n' t : Str}
    (hn1 : n ≠ []) (hn2 : n.all isVarChar = true)
    (hm1 : n' ≠ []) (hm2 : n'.all isVarChar = true)
    (h : mkPat n <+: mkPat n' ++ t) : n = n' := by
  obtain ⟨u, hu⟩ := h
  have e1 : tryMatch (mkPat n' ++ t) = some (n', t) := tryMatch_mkPat hm1 hm2 t
  have e2 : tryMatch (mkPat n ++ u) = some (n, u) := tryMatch_mkPat hn1 hn2 u
  rw [← hu, e2] at e1
  simp only [Option.some.injEq, Prod.mk.injEq] at e1
  exact e1.1

/-! ### Scanning over dollar-free segments and over placeholders -/

theorem findMatches_append_noDollar {a : Str} (h : '$' ∉ a) (t : Str) :
    findMatches (a ++ t) = findMatches t := by
  induction a with
  | nil => rfl
  | cons x a ih =>
    have hx : x ≠ '$' := fun hh => h (hh ▸ List.mem_cons_self x a)
    have ha : '$' ∉ a := fun hh => h (List.mem_cons_of_mem x hh)
    simp only [List.cons_append, findMatches, tryMatch_none_of_ne_dollar hx]
    exact ih ha

theorem dollarsWF_cons_ne {c : Char} {r : Str} (hc : c ≠ '$') :
    dollarsWF (c :: r) = dollarsWF r := by
  simp [dollarsWF, hc]

theorem dollarsWF_append_noDollar {a : Str} (h : '$' ∉ a) (t : Str) :
    dollarsWF (a ++ t) = dollarsWF t := by
  induction a with
  | nil => rfl
  | cons x a ih =>
    have hx : x ≠ '$' := fun hh => h (hh ▸ List.mem_cons_self x a)
    have ha : '$' ∉ a := fun hh => h (List.mem_cons_of_mem x hh)
    rw [List.cons_append, dollarsWF_cons_ne hx]
    exact ih ha

theorem specSubstitute_cons_ne (env : Env) {c : Char} {r : Str} (hc : c ≠ '$') :
    specSubstitute env (c :: r) = c :: specSubstitute env r := by
  rw [specSubstitute_cons, tryMatch_none_of_ne_dollar hc]

theorem specSubstitute_append_noDollar (env : Env) {a : Str} (h : '$' ∉ a) (t : Str) :
    specSubstitute env (a ++ t) = a ++ specSubstitute env t := by
  induction a with
  | nil => rfl
  | cons x a ih =>
    have hx : x ≠ '$' := fun hh => h (hh ▸ List.mem_cons_self x a)
    have ha : '$' ∉ a := fun hh => h (List.mem_cons_of_mem x hh)
    rw [List.cons_append, specSubstitute_cons_ne env hx, ih ha, List.cons_append]

theorem replaceAll_cons_ne {c : Char} {rest n v : Str} (hc : c ≠ '$') :
    replaceAll (c :: rest) (mkPat n) v = c :: replaceAll rest (mkPat n) v := by
  rw [show mkPat n = '$' :: ('{' :: (n ++ ['}'])) from rfl, replaceAll_cons, if_neg]
  intro hpre
  exact hc (List.cons_prefix_cons.mp hpre).1.symm

theorem replaceAll_append_noDollar {a : Str} (h : '$' ∉ a) (t n v : Str) :
    replaceAll (a ++ t) (mkPat n) v = a ++ replaceAll t (mkPat n) v := by
  induction a with
  | nil => rfl
  | cons x a ih =>
    have hx : x ≠ '$' := fun hh => h (hh ▸ List.mem_cons_self x a)
    have ha : '$' ∉ a := fun hh => h (List.mem_cons_of_mem x hh)
    rw [List.cons_append, replaceAll_cons_ne hx, ih ha, List.cons_append]

theorem findMatches_cons_some {c : Char} {rest n a : Str}
    (h : tryMatch (c :: rest) = some (n, a)) :
    findMatches (c :: rest) = mkPat n :: findMatches rest := by
  have e : findMatches (c :: rest) =
      (match tryMatch (c :: rest) with
        | some (name, _) => mkPat name :: findMatches rest
        | none => findMatches rest) := rfl
  rw [e, h]

theorem findMatches_cons_none {c : Char} {rest : Str}
    (h : tryMatch (c :: rest) = none) :
    findMatches (c :: rest) = findMatches rest := by
  have e : findMatches (c :: rest) =
      (match tryMatch (c :: rest) with
        | some (name, _) => mkPat name :: findMatches rest
        | none => findMatches rest) := rfl
  rw [e, h]

theorem findMatches_mkPat {n : Str} (h1 : n ≠ []) (h2 : n.all isVarChar = true) (t : Str) :
    findMatches (mkPat n ++ t) = mkPat n :: findMatches t := by
  have htm : tryMatch ('$' :: (('{' :: (n ++ ['}'])) ++ t)) = some (n, t) :=
    tryMatch_mkPat h1 h2 t
  show findMatches ('$' :: (('{' :: (n ++ ['}'])) ++ t)) = _
  rw [findMatches_cons_some htm]
  rw [findMatches_append_noDollar (dollar_notMem_inner h2) t]

theorem dollarsWF_cons_dollar {rest : Str} :
    dollarsWF ('$' :: rest) =
      (match tryMatch ('$' :: rest) with
        | some _ => dollarsWF rest
        | none => false) := by
  have e : dollarsWF ('$' :: rest) =
      (if '$' = '$' then
        match tryMatch ('$' :: rest) with
        | some _ => dollarsWF rest
        | none => false
      else dollarsWF rest) := rfl
  rw [e, if_pos rfl]

theorem dollarsWF_mkPat {n : Str} (h1 : n ≠ []) (h2 : n.all isVarChar = true) (t : Str) :
    dollarsWF (mkPat n ++ t) = dollarsWF t := by
  have htm : tryMatch ('$' :: (('{' :: (n ++ ['}'])) ++ t)) = some (n, t) :=
    tryMatch_mkPat h1 h2 t
  have happ := dollarsWF_append_noDollar (dollar_notMem_inner h2) t
  show dollarsWF ('$' :: (('{' :: (n ++ ['}'])) ++ t)) = _
  rw [dollarsWF_cons_dollar, htm]
  exact happ

theorem specSubstitute_mkPat (env : Env) {n : Str}
    (h1 : n ≠ []) (h2 : n.all isVarChar = true) (t : Str) :
    specSubstitute env (mkPat n ++ t) = env n ++ specSubstitute env t := by
  have htm : tryMatch ('$' :: (('{' :: (n ++ ['}'])) ++ t)) = some (n, t) :=
    tryMatch_mkPat h1 h2 t
  show specSubstitute env ('$' :: (('{' :: (n ++ ['}'])) ++ t)) = _
  rw [specSubstitute_cons, htm]
  dsimp only
  have hdrop : (('{' :: (n ++ ['}'])) ++ t).drop (n.length + 2) = t := by
    apply List.drop_left'
    simp
  rw [hdrop]

theorem replaceAll_mkPat_self (n t v : Str) :
    replaceAll (mkPat n ++ t) (mkPat n) v = v ++ replaceAll t (mkPat n) v := by
  show replaceAll ('$' :: (('{' :: (n ++ ['}'])) ++ t)) ('$' :: ('{' :: (n ++ ['}']))) v = _
  rw [replaceAll_cons, if_pos]
  · rw [List.drop_left]
    rfl
  · exact List.cons_prefix_cons.mpr ⟨rfl, List.prefix_append _ _⟩

theorem replaceAll_mkPat_other {n n' : Str}
    (hn1 : n ≠ []) (hn2 : n.all isVarChar = true)
    (hm1 : n' ≠ []) (hm2 : n'.all isVarChar = true)
    (hne : n' ≠ n) (t v : Str) :
    replaceAll (mkPat n' ++ t) (mkPat n) v = mkPat n' ++ replaceAll t (mkPat n) v := by
  have hnp : ¬('$' :: ('{' :: (n ++ ['}'])) <+: '$' :: (('{' :: (n' ++ ['}'])) ++ t)) := by
    intro hpre
    exact hne (prefix_mkPat_mkPat hn1 hn2 hm1 hm2 hpre).symm
  show replaceAll ('$' :: (('{' :: (n' ++ ['}'])) ++ t)) ('$' :: ('{' :: (n ++ ['}']))) v = _
  rw [replaceAll_cons, if_neg hnp]
  show '$' :: replaceAll (('{' :: (n' ++ ['}'])) ++ t) (mkPat n) v = _
  rw [replaceAll_append_noDollar (dollar_notMem_inner hm2) t n v]
  rfl

theorem findMatches_mem_decomp :
    ∀ {s x : Str}, x ∈ findMatches s →
      ∃ n, x = mkPat n ∧ n ≠ [] ∧ n.all isVarChar = true := by
  intro s
  induction s with
  | nil => intro x hx; simp [findMatches] at hx
  | cons c rest ih =>
    intro x hx
    cases htm : tryMatch (c :: rest) with
    | none =>
      simp only [findMatches, htm] at hx
      exact ih hx
    | some na =>
      obtain ⟨n, a⟩ := na
      obtain ⟨hn1, hn2, _⟩ := tryMatch_some_decomp htm
      simp only [findMatches, htm] at hx
      rcases List.mem_cons.mp hx with h | h
      · exact ⟨n, h, hn1, hn2⟩
      · exact ih h

/-- Induction over strings in which every dollar sign begins a well-formed
placeholder: such a string is empty, or a non-dollar character followed by
such a string, or a full placeholder followed by such a string. -/
theorem wfInduction (P : Str → Prop) (h1 : P [])
    (h2 : ∀ c rest, c ≠ '$' → dollarsWF rest = true → P rest → P (c :: rest))
    (h3 : ∀ n t, n ≠ [] → n.all isVarChar = true → dollarsWF t = true → P t →
      P (mkPat n ++ t)) :
    ∀ s, dollarsWF s = true → P s := by
  have key : ∀ k s, s.length ≤ k → dollarsWF s = true → P s := by
    intro k
    induction k with
    | zero =>
      intro s hl _
      have hs : s = [] := List.eq_nil_of_length_eq_zero (Nat.le_zero.mp hl)
      exact hs ▸ h1
    | succ k ih =>
      intro s hl hwf
      cases s with
      | nil => exact h1
      | cons c rest =>
        by_cases hc : c = '$'
        · subst hc
          cases htm : tryMatch ('$' :: rest) with
          | none => simp [dollarsWF, htm] at hwf
          | some na =>
            obtain ⟨n, a⟩ := na
            obtain ⟨hn1, hn2, hdec⟩ := tryMatch_some_decomp htm
            rw [hdec] at hwf ⊢
            rw [dollarsWF_mkPat hn1 hn2] at hwf
            have hlen : a.length ≤ k := by
              have := congrArg List.length hdec
              simp only [List.length_cons, List.length_append, mkPat,
                List.length_singleton] at this
              simp only [List.length_cons] at hl
              omega
            exact h3 n a hn1 hn2 hwf (ih a hlen hwf)
        · have hwf2 : dollarsWF rest = true := by
            rw [dollarsWF_cons_ne hc] at hwf
            exact hwf
          have hlen : rest.length ≤ k := by
            simp only [List.length_cons] at hl
            omega
          exact h2 c rest hc hwf2 (ih rest hlen hwf2)
  intro s
  exact key s.length s le_rfl

/-! ### Replacement preserves well-formedness and the match structure -/

theorem dollarsWF_replaceAll {n v : Str}
    (hn1 : n ≠ []) (hn2 : n.all isVarChar = true) (hv : '$' ∉ v) :
    ∀ s, dollarsWF s = true → dollarsWF (replaceAll s (mkPat n) v) = true := by
  refine wfInduction _ ?_ ?_ ?_
  · rw [replaceAll_nil]
    rfl
  · intro c rest hc _ ih
    rw [replaceAll_cons_ne hc, dollarsWF_cons_ne hc]
    exact ih
  · intro m t hm1 hm2 _ ih
    by_cases he : m = n
    · subst he
      rw [replaceAll_mkPat_self, dollarsWF_append_noDollar hv]
      exact ih
    · rw [replaceAll_mkPat_other hn1 hn2 hm1 hm2 he, dollarsWF_mkPat hm1 hm2]
      exact ih

theorem findMatches_replaceAll {n v : Str}
    (hn1 : n ≠ []) (hn2 : n.all isVarChar = true) (hv : '$' ∉ v) :
    ∀ s, dollarsWF s = true →
      findMatches (replaceAll s (mkPat n) v) =
        (findMatches s).filter (fun x => decide (x ≠ mkPat n)) := by
  refine wfInduction _ ?_ ?_ ?_
  · rw [replaceAll_nil]
    rfl
  · intro c rest hc _ ih
    rw [replaceAll_cons_ne hc,
      findMatches_cons_none (tryMatch_none_of_ne_dollar hc),
      findMatches_cons_none (tryMatch_none_of_ne_dollar hc)]
    exact ih
  · intro m t hm1 hm2 _ ih
    by_cases he : m = n
    · subst he
      rw [replaceAll_mkPat_self, findMatches_append_noDollar hv,
        findMatches_mkPat hm1 hm2, ih, List.filter_cons]
      simp
    · rw [replaceAll_mkPat_other hn1 hn2 hm1 hm2 he,
        findMatches_mkPat hm1 hm2, findMatches_mkPat hm1 hm2, ih, List.filter_cons]
      have hd : decide (mkPat m ≠ mkPat n) = true := by
        simp only [decide_eq_true_eq, ne_eq]
        exact fun hh => he (mkPat_inj hh)
      rw [hd]
      simp

theorem specSubstitute_replaceAll (env : Env) {n : Str}
    (hn1 : n ≠ []) (hn2 : n.all isVarChar = true) (hv : '$' ∉ env n) :
    ∀ s, dollarsWF s = true →
      specSubstitute env (replaceAll s (mkPat n) (env n)) = specSubstitute env s := by
  refine wfInduction _ ?_ ?_ ?_
  · rw [replaceAll_nil]
  · intro c rest hc _ ih
    rw [replaceAll_cons_ne hc, specSubstitute_cons_ne env hc,
      specSubstitute_cons_ne env hc, ih]
  · intro m t hm1 hm2 _ ih
    by_cases he : m = n
    · subst he
      rw [replaceAll_mkPat_self, specSubstitute_append_noDollar env hv,
        specSubstitute_mkPat env hm1 hm2, ih]
    · rw [replaceAll_mkPat_other hn1 hn2 hm1 hm2 he,
        specSubstitute_mkPat env hm1 hm2, specSubstitute_mkPat env hm1 hm2, ih]

theorem spec_of_findMatches_nil (env : Env) :
    ∀ s, dollarsWF s = true → (findMatches s = [] → specSubstitute env s = s) := by
  refine wfInduction _ ?_ ?_ ?_
  · intro _
    rfl
  · intro c rest hc _ ih hfm
    rw [findMatches_cons_none (tryMatch_none_of_ne_dollar hc)] at hfm
    rw [specSubstitute_cons_ne env hc, ih hfm]
  · intro m t hm1 hm2 _ _ hfm
    rw [findMatches_mkPat hm1 hm2] at hfm
    exact absurd hfm (by simp)

/-! ### The sequential loop against the simultaneous substitution -/

theorem substLoop_spec (env : Env) :
    ∀ ms s, dollarsWF s = true →
      (∀ m ∈ ms, ∃ n, m = mkPat n ∧ n ≠ [] ∧ n.all isVarChar = true ∧
        env n ≠ [] ∧ '$' ∉ env n) →
      (∀ x ∈ findMatches s, x ∈ ms) →
      substLoop env ms s = .ok (specSubstitute env s) := by
  intro ms
  induction ms with
  | nil =>
    intro s hwf _ hsub
    have hfm : findMatches s = [] :=
      List.eq_nil_iff_forall_not_mem.mpr
        (fun a ha => List.not_mem_nil a (hsub a ha))
    rw [spec_of_findMatches_nil env s hwf hfm]
    rfl
  | cons m ms ih =>
    intro s hwf hms hsub
    obtain ⟨n, rfl, hn1, hn2, henv, hdollar⟩ := hms m (List.mem_cons_self m ms)
    have e : substLoop env (mkPat n :: ms) s =
        (if env (varName (mkPat n)) = [] then
          Except.error (("error: env var ".toList) ++ mkPat n ++ (" not defined".toList))
        else substLoop env ms (replaceAll s (mkPat n) (env (varName (mkPat n))))) := rfl
    rw [e, varName_mkPat, if_neg henv]
    have hsubset : ∀ x ∈ findMatches (replaceAll s (mkPat n) (env n)), x ∈ ms := by
      intro x hx
      rw [findMatches_replaceAll hn1 hn2 hdollar s hwf, List.mem_filter] at hx
      obtain ⟨hx1, hx2⟩ := hx
      have hxne : x ≠ mkPat n := of_decide_eq_true hx2
      rcases List.mem_cons.mp (hsub x hx1) with h | h
      · exact absurd h hxne
      · exact h
    rw [ih _ (dollarsWF_replaceAll hn1 hn2 hdollar s hwf)
        (fun m' hm' => hms m' (List.mem_cons_of_mem _ hm')) hsubset,
      specSubstitute_replaceAll env hn1 hn2 hdollar s hwf]

theorem substLoop_error (env : Env) :
    ∀ ms s m, firstBad env ms = some m →
      substLoop env ms s =
        .error (("error: env var ".toList) ++ m ++ (" not defined".toList)) := by
  intro ms
  induction ms with
  | nil =>
    intro s m h
    exact absurd h (by simp [firstBad])
  | cons m' ms ih =>
    intro s m h
    have ef : firstBad env (m' :: ms) =
        (if env (varName m') = [] then some m' else firstBad env ms) := rfl
    have e : substLoop env (m' :: ms) s =
        (if env (varName m') = [] then
          Except.error (("error: env var ".toList) ++ m' ++ (" not defined".toList))
        else substLoop env ms (replaceAll s m' (env (varName m')))) := rfl
    rw [ef] at h
    by_cases hb : env (varName m') = []
    · rw [if_pos hb] at h
      injection h with h
      subst h
      rw [e, if_pos hb]
    · rw [if_neg hb] at h
      rw [e, if_neg hb]
      exact ih _ m h

theorem substLoop_ok (env : Env) :
    ∀ ms s, firstBad env ms = none → ∃ out, substLoop env ms s = .ok out := by
  intro ms
  induction ms with
  | nil =>
    intro s _
    exact ⟨s, rfl⟩
  | cons m ms ih =>
    intro s h
    have ef : firstBad env (m :: ms) =
        (if env (varName m) = [] then some m else firstBad env ms) := rfl
    have e : substLoop env (m :: ms) s =
        (if env (varName m) = [] then
          Except.error (("error: env var ".toList) ++ m ++ (" not defined".toList))
        else substLoop env ms (replaceAll s m (env (varName m)))) := rfl
    rw [ef] at h
    by_cases hb : env (varName m) = []
    · rw [if_pos hb] at h
      exact absurd h (by simp)
    · rw [if_neg hb] at h
      rw [e, if_neg hb]
      exact ih _ h

/-! ### Claims about public-ID composition -/

/-- Claim C1: for every identifier, resource kind and default prepend path,
a nonempty per-command path override makes the composed canonical ID
independent of the default prepend path, and with both the override and
the default empty the effective prepend path is empty, so the identifier
is not prefixed. -/
theorem claim1_override_precedence :
    (∀ opt optPath prependPath optRaw, optPath ≠ [] →
      composePublicID opt optPath prependPath optRaw = composePublicID opt optPath [] optRaw)
    ∧ effectivePrepend [] [] = []
    ∧ (∀ opt optRaw, optRaw ≠ [] → composePublicID opt [] [] optRaw = opt)
    ∧ (∀ opt, composePublicID opt [] [] [] = cleanExtension opt) := by
  refine ⟨?_, rfl, ?_, ?_⟩
  · intro opt optPath prependPath optRaw h
    simp [composePublicID, effectivePrepend, h]
  · intro opt optRaw h
    simp [composePublicID, effectivePrepend, h]
  · intro opt
    simp [composePublicID, effectivePrepend, CleanExtensionNameWithPrepend]

theorem claim1_witness :
    composePublicID ("photo.jpg".toList) ("/override/".toList) ("/default/".toList) [] =
      composePublicID ("photo.jpg".toList) ("/override/".toList) [] [] :=
  claim1_override_precedence.1 ("photo.jpg".toList) ("/override/".toList)
    ("/default/".toList) [] (by decide)

/-- Claim C3 as stated is false: the source ensureTrailingSlash turns the
empty path into a sole separator (so the result is not empty iff the input
is), and it returns a path that already ends in two separators unchanged
(so a nonempty input need not yield exactly one trailing separator). -/
theorem claim3_counterexample :
    ensureTrailingSlash [] = ['/'] ∧ (['/'] : Str) ≠ []
    ∧ ensureTrailingSlash ("a//".toList) = ("a//".toList)
    ∧ ("a//".toList : Str) ≠ []
    ∧ ("a//".toList : Str).getLast? = some '/'
    ∧ ("a//".toList : Str).dropLast.getLast? = some '/' := by
  refine ⟨by decide, by decide, by decide, by decide, by decide, by decide⟩

/-- Claim C3, amended: normalize is idempotent and never returns an empty
result; an input that does not already end in a separator gets exactly one
appended (removing the appended separator restores the input, which does
not end in one); an input that already ends in a separator — the empty
string is not such an input and maps to a sole separator — is returned
unchanged, trailing runs included. -/
theorem claim3_amended :
    (∀ x, ensureTrailingSlash (ensureTrailingSlash x) = ensureTrailingSlash x)
    ∧ (∀ x, ensureTrailingSlash x ≠ [])
    ∧ (∀ x, hasTrailingSlash x = false →
        ensureTrailingSlash x = x ++ ['/']
        ∧ hasTrailingSlash (x ++ ['/']) = true
        ∧ (x ++ ['/']).dropLast = x)
    ∧ (∀ x, hasTrailingSlash x = true → ensureTrailingSlash x = x) := by
  have hconcat : ∀ x : Str, hasTrailingSlash (x ++ ['/']) = true := by
    intro x
    simp [hasTrailingSlash, List.getLast?_concat]
  refine ⟨?_, ?_, ?_, ?_⟩
  · intro x
    by_cases h : hasTrailingSlash x
    · simp [ensureTrailingSlash, h]
    · simp [ensureTrailingSlash, h, hconcat x]
  · intro x
    by_cases h : hasTrailingSlash x
    · intro hx
      rw [ensureTrailingSlash, if_pos h] at hx
      subst hx
      simp [hasTrailingSlash] at h
    · simp [ensureTrailingSlash, h]
  · intro x h
    refine ⟨by simp [ensureTrailingSlash, h], hconcat x, by simp⟩
  · intro x h
    simp [ensureTrailingSlash, h]

theorem claim3_witness :
    ensureTrailingSlash ("a".toList) = (("a".toList) ++ ['/'])
    ∧ hasTrailingSlash (("a".toList) ++ ['/']) = true
    ∧ (("a".toList) ++ ['/']).dropLast = ("a".toList) :=
  claim3_amended.2.2.1 ("a".toList) (by decide)

/-- Claim C5: composing a Raw-kind canonical ID concatenates the effective
prepend path with the identifier verbatim; composing an Image-kind ID
first strips the extension (the text from the final dot of the final path
segment onward, when present) and then prepends; with the stated concrete
values the results are /p/photo and /p/photo.jpg. -/
theorem claim5_extension_handling :
    (∀ opt optPath prependPath optRaw, optRaw ≠ [] →
      composePublicID opt optPath prependPath optRaw =
        effectivePrepend optPath prependPath ++ opt)
    ∧ (∀ opt optPath prependPath,
      composePublicID opt optPath prependPath [] =
        effectivePrepend optPath prependPath ++ cleanExtension opt)
    ∧ (∀ stem ext, '.' ∉ ext → '/' ∉ ext →
        cleanExtension (stem ++ '.' :: ext) = stem)
    ∧ (∀ s, '.' ∉ s → cleanExtension s = s)
    ∧ composePublicID ("photo.jpg".toList) [] ("/p/".toList) [] = ("/p/photo".toList)
    ∧ composePublicID ("photo.jpg".toList) [] ("/p/".toList) ("photo.jpg".toList) =
        ("/p/photo.jpg".toList) := by
  refine ⟨?_, ?_, ?_, ?_, by decide, by decide⟩
  · intro opt optPath prependPath optRaw h
    simp [composePublicID, h]
  · intro opt optPath prependPath
    simp [composePublicID, CleanExtensionNameWithPrepend]
  · intro stem ext hd hs
    exact cleanExtension_strip hd hs
  · intro s hd
    exact cleanExtension_of_no_dot hd

theorem claim5_witness :
    composePublicID ("dir/f.png".toList) ("/p".toList) [] ("raw".toList) =
      effectivePrepend ("/p".toList) [] ++ ("dir/f.png".toList) :=
  claim5_extension_handling.1 ("dir/f.png".toList) ("/p".toList) [] ("raw".toList) (by decide)

/-- Claim C6 as stated is false: when both selectors are supplied, the
composition of the image identifier takes the raw branch (the raw flag is
tested first), so the extension is kept, not stripped. -/
theorem claim6_counterexample :
    composePublicID ("photo.jpg".toList) [] [] ("x".toList) = ("photo.jpg".toList)
    ∧ CleanExtensionNameWithPrepend ("photo.jpg".toList) (effectivePrepend [] []) =
        ("photo".toList)
    ∧ ("photo.jpg".toList : Str) ≠ ("photo".toList) := by
  refine ⟨by decide, by decide, by decide⟩

/-- Claim C6, amended: supplying both selectors is permitted (no usage
error), and the Raw branch takes precedence in composition — the canonical
ID for the image identifier is composed with raw rules, extension kept —
and the remove command performs the raw deletion. -/
theorem claim6_amended (img raw optPath prependPath : Str)
    (h1 : img ≠ []) (h2 : raw ≠ []) :
    composePublicID img optPath prependPath raw =
      effectivePrepend optPath prependPath ++ img
    ∧ rmRun img raw optPath prependPath =
        ([ServiceCall.delete raw (effectivePrepend optPath prependPath) ResourceKind.raw], none)
    ∧ (rmRun img raw optPath prependPath).2 = none := by
  have hb : ¬(raw = [] ∧ img = []) := fun h => h2 h.1
  refine ⟨by simp [composePublicID, h2], ?_, ?_⟩
  · simp [rmRun, hb, h2]
  · simp [rmRun, hb, h2]

theorem claim6_witness :
    composePublicID ("photo.jpg".toList) [] [] ("x".toList) =
      effectivePrepend [] [] ++ ("photo.jpg".toList)
    ∧ rmRun ("photo.jpg".toList) ("x".toList) [] [] =
        ([ServiceCall.delete ("x".toList) (effectivePrepend [] []) ResourceKind.raw], none)
    ∧ (rmRun ("photo.jpg".toList) ("x".toList) [] []).2 = none :=
  claim6_amended ("photo.jpg".toList) ("x".toList) [] [] (by decide) (by decide)

/-- Claim C2: with an empty configured prepend path and a nonempty
production tag, the resolved default prepend path applies environment
substitution to the tag first and trailing-slash normalization second;
normalization is a no-op on a string that already ends in a separator, so
the BUILD_ID example resolves to 42/ and not 42//. -/
theorem claim2_tag_fallback :
    (∀ env c s, c.prependPath = [] → c.prodTag ≠ [] →
      replaceEnvVars env c.prodTag = .ok s →
      hevStep2 env c = ({ c with prependPath := EnsureTrailingSlash s }, none))
    ∧ (∀ s, hasTrailingSlash s = true → EnsureTrailingSlash s = s)
    ∧ hevStep2 env42 cfgTag = ({ cfgTag with prependPath := ("42/".toList) }, none)
    ∧ ("42/".toList : Str) ≠ ("42//".toList) := by
  refine ⟨?_, ?_, by decide, by decide⟩
  · intro env c s h1 h2 h3
    have hlen : c.prependPath.length = 0 := by simp [h1]
    have hpos : c.prodTag.length > 0 := List.length_pos.mpr h2
    simp [hevStep2, hlen, hpos, h3]
  · intro s h
    have hne : s ≠ [] := by
      intro hs
      subst hs
      simp [hasTrailingSlash] at h
    simp [EnsureTrailingSlash, hne, ensureTrailingSlash, h]

theorem claim2_witness :
    hevStep2 env42 cfgTag = ({ cfgTag with prependPath := EnsureTrailingSlash ("42/".toList) }, none) :=
  claim2_tag_fallback.1 env42 cfgTag ("42/".toList) rfl (by decide) (by decide)

/-- Claim C4 as stated is false: with every referenced variable having a
nonempty value, the code performs sequential global replacement over the
evolving string, so a value that itself contains the text of a later
placeholder is substituted again; on the input with A mapped to the text
of the B placeholder, the code yields vv, while the string with every
placeholder occurrence replaced by its value is different. -/
theorem claim4_counterexample :
    firstBad envAB (findMatches ("${A}${B}".toList)) = none
    ∧ replaceEnvVars envAB ("${A}${B}".toList) = .ok ("vv".toList)
    ∧ specSubstitute envAB ("${A}${B}".toList) = ("${B}v".toList)
    ∧ ("vv".toList : Str) ≠ ("${B}v".toList) := by
  refine ⟨by decide, by decide, by decide, by decide⟩

/-- Claim C4, amended: if any matched placeholder names a variable with an
empty (undefined) value, replaceEnvVars fails with the error identifying
the first such placeholder and returns no partially substituted string;
if all matched variables have nonempty values it succeeds; lowercase
placeholders are not matched and stay verbatim; and the replacement is
sequential — when additionally every dollar sign of the input begins a
well-formed placeholder and no referenced value contains a dollar sign,
the sequential result is exactly the input with every placeholder
occurrence replaced by its value (the simultaneous substitution). -/
theorem claim4_amended :
    (∀ env src m, firstBad env (findMatches src) = some m →
      replaceEnvVars env src =
        .error (("error: env var ".toList) ++ m ++ (" not defined".toList)))
    ∧ (∀ env src, firstBad env (findMatches src) = none →
        ∃ out, replaceEnvVars env src = .ok out)
    ∧ (∀ env src, dollarsWF src = true →
        (∀ x ∈ findMatches src, env (varName x) ≠ [] ∧ '$' ∉ env (varName x)) →
        replaceEnvVars env src = .ok (specSubstitute env src))
    ∧ (∀ env : Env, replaceEnvVars env ("${a}".toList) = .ok ("${a}".toList)) := by
  refine ⟨?_, ?_, ?_, ?_⟩
  · intro env src m h
    exact substLoop_error env (findMatches src) src m h
  · intro env src h
    exact substLoop_ok env (findMatches src) src h
  · intro env src hwf hcond
    apply substLoop_spec env (findMatches src) src hwf ?_ (fun x hx => hx)
    intro m hm
    obtain ⟨n, rfl, hn1, hn2⟩ := findMatches_mem_decomp hm
    have hc := hcond (mkPat n) hm
    rw [varName_mkPat] at hc
    exact ⟨n, rfl, hn1, hn2, hc.1, hc.2⟩
  · intro env
    rfl

theorem claim4_witness :
    replaceEnvVars env42 ("${BUILD_ID}/".toList) =
      .ok (specSubstitute env42 ("${BUILD_ID}/".toList)) :=
  claim4_amended.2.2.1 env42 ("${BUILD_ID}/".toList) (by decide) (by decide)

/-- Claim C7 as stated is false: LoadConfig can fail (here: the tracking
URI fails to parse) after it has already assigned the service URI into the
package-level settings, so the settings state observable after the failing
call differs from the state before it. -/
theorem claim7_counterexample :
    (LoadConfig extSimple envEmpty rawCex emptyCfg).2 =
      .error (("mongoDB URI: net/url: invalid control character in URL".toList))
    ∧ (LoadConfig extSimple envEmpty rawCex emptyCfg).1 ≠ emptyCfg
    ∧ (LoadConfig extSimple envEmpty rawCex emptyCfg).1.cloudinaryURI = some ⟨("u".toList)⟩ := by
  refine ⟨by decide, by decide, by decide⟩

/-- Claim C7, amended: on failure LoadConfig returns only the error and
never a Settings value, and on success the returned Settings is exactly
the final settings state; but the package-level settings is mutated step
by step, so a failing step leaves the assignments of the earlier steps
observable (no rollback) — both a tracking-URI parse failure and a
tag-substitution failure occur after the service URI was assigned. -/
theorem claim7_amended :
    (∀ ext env raw s0 c r, LoadConfig ext env raw s0 = (c, Except.ok r) → r = c)
    ∧ ((LoadConfig extSimple envEmpty rawCex2 emptyCfg).2 =
        .error (("error: env var ${X} not defined".toList)))
    ∧ (LoadConfig extSimple envEmpty rawCex2 emptyCfg).1.cloudinaryURI = some ⟨("u".toList)⟩
    ∧ (LoadConfig extSimple envEmpty rawCex2 emptyCfg).1 ≠ emptyCfg := by
  refine ⟨?_, by decide, by decide, by decide⟩
  intro ext env raw s0 c r h
  unfold LoadConfig at h
  repeat' split at h
  all_goals first
    | exact finishLoad_ok h
    | simp_all

theorem claim7_witness :
    cfgEmptyLoaded = (LoadConfig extSimple envEmpty rawEmpty emptyCfg).1 :=
  claim7_amended.1 extSimple envEmpty rawEmpty emptyCfg
    (LoadConfig extSimple envEmpty rawEmpty emptyCfg).1 cfgEmptyLoaded (by decide)

/-- Claim C8: the code does not in fact enforce the service URI as
required — the error check after reading it is dead code and net/url
parses the empty string successfully, so a configuration with the service
URI absent resolves without any error, yielding settings whose service URI
is the empty URL. -/
theorem claim8_required_uri_not_enforced :
    LoadConfig extSimple envEmpty rawEmpty emptyCfg = (cfgEmptyLoaded, .ok cfgEmptyLoaded)
    ∧ cfgEmptyLoaded.cloudinaryURI = some ⟨[]⟩ := by
  refine ⟨by decide, rfl⟩

/-! ### Claims about command dispatch -/

/-- Claim C9: a remove invocation that supplies neither resource-kind
selector fails with the usage error and performs no remote-service call at
all — in particular no delete. -/
theorem claim9_rm_usage_error (optImg optRaw optPath prependPath : Str)
    (h1 : optImg = []) (h2 : optRaw = []) :
    rmRun optImg optRaw optPath prependPath =
      ([], some ("Missing -i or -r option.".toList))
    ∧ ∀ id p k, ServiceCall.delete id p k ∉ (rmRun optImg optRaw optPath prependPath).1 := by
  subst h1; subst h2
  refine ⟨by simp [rmRun], ?_⟩
  intro id p k
  simp [rmRun]

theorem claim9_witness :
    rmRun [] [] ("p".toList) [] = ([], some ("Missing -i or -r option.".toList))
    ∧ ∀ id p k, ServiceCall.delete id p k ∉ (rmRun [] [] ("p".toList) []).1 :=
  claim9_rm_usage_error [] [] ("p".toList) [] rfl rfl

/-- Claim C10: a list invocation with a nonempty raw selector prints that
raw details are not supported and exits with success, performing no
remote-service call — in particular the resource-details operation is
never invoked, even when the image selector is also supplied. -/
theorem claim10_ls_raw_not_supported (optImg optRaw optPath prependPath : Str)
    (h : optRaw ≠ []) :
    (lsRun optImg optRaw optPath prependPath).printedRawNotSupported = true
    ∧ (lsRun optImg optRaw optPath prependPath).exitedWithSuccess = true
    ∧ (lsRun optImg optRaw optPath prependPath).calls = []
    ∧ ∀ pid, ServiceCall.resourceDetails pid ∉ (lsRun optImg optRaw optPath prependPath).calls := by
  have hb : ¬(optImg = [] ∧ optRaw = []) := fun hh => h hh.2
  refine ⟨by simp [lsRun, hb, h], by simp [lsRun, hb, h], by simp [lsRun, hb, h], ?_⟩
  intro pid
  simp [lsRun, hb, h]

theorem claim10_witness :
    (lsRun ("photo.jpg".toList) ("x".toList) [] []).printedRawNotSupported = true
    ∧ (lsRun ("photo.jpg".toList) ("x".toList) [] []).exitedWithSuccess = true
    ∧ (lsRun ("photo.jpg".toList) ("x".toList) [] []).calls = []
    ∧ ∀ pid, ServiceCall.resourceDetails pid ∉ (lsRun ("photo.jpg".toList) ("x".toList) [] []).calls :=
  claim10_ls_raw_not_supported ("photo.jpg".toList) ("x".toList) [] [] (by decide)

end Cloudinary
